import Mathlib

/-!
Verification of the MapReduce framework core against its specification.

This file is a shallow embedding, in Lean 4, of the parts of the C++ sources
that the verified properties talk about:

* `JobStateManager.cpp` — the packed 64-bit progress word
  (`encodeState`, `decodeStage`, `decodeProcessed`, `decodeTotal`,
  `incrementProcessed`, `setTotal`, `setStage`, `updateState`).
  Machine words are modelled as `Nat`; a bitwise AND with `0x7FFFFFFF`
  is `% 2 ^ 31`, a left shift by `k` is `* 2 ^ k`, and the bitwise OR of
  the three fields is `+` because their bit ranges are disjoint
  (stage in bits 63–62, processed in bits 61–31, total in bits 30–0).
* `MapReduceFramework.cpp` — the shuffle phase (`findMaxKey` scan,
  group collection, the outer loop), the per-worker sort, the sequential
  skeleton of the map and reduce phases, and the job-handle API
  (`startMapReduceJob`, `getJobState`, `waitForJob`, `closeJobHandle`).

Representation of buffers: a C++ `IntermediateVec` is sorted ascending and
then drained from the *back* (`vec.back()` / `vec.pop_back()`).  We represent
each buffer as the Lean list whose head is the back of the vector, so
`back` is `List.head?`, `pop_back` is `List.tail`, and being sorted
ascending becomes: consecutive elements `a, b` (head side first) satisfy
`lt a.1 b.1 = false`, i.e. the list is non-increasing from the head.

Intermediate keys carry only a strict weak order given as a `Bool`-valued
comparator `lt`, exactly as the C++ sources compare `K2` objects only via
`operator<`.
-/

namespace MRF

/-- Stages of a job, mirroring the C++ enum
`stage_t {UNDEFINED_STAGE=0, MAP_STAGE=1, SHUFFLE_STAGE=2, REDUCE_STAGE=3}`. -/
inductive stage_t : Type
  | UNDEFINED_STAGE
  | MAP_STAGE
  | SHUFFLE_STAGE
  | REDUCE_STAGE
deriving DecidableEq, Repr

/-- Numeric value of a stage, as fixed by the C++ enum. -/
def stageNum : stage_t → Nat
  | .UNDEFINED_STAGE => 0
  | .MAP_STAGE => 1
  | .SHUFFLE_STAGE => 2
  | .REDUCE_STAGE => 3

/-- Cast of a 2-bit number back to a stage, as in the C++
`static_cast<stage_t>((v >> STAGE_SHIFT) & STAGE_MASK)`. -/
def stageOfNat : Nat → stage_t
  | 0 => .UNDEFINED_STAGE
  | 1 => .MAP_STAGE
  | 2 => .SHUFFLE_STAGE
  | _ => .REDUCE_STAGE

/-- Embedding of `JobStateManager::encodeState`:
`((stage & 0x3) << 62) | ((processed & 0x7FFFFFFF) << 31) | (total & 0x7FFFFFFF)`.
The three fields occupy disjoint bit ranges, so the ORs are sums;
`& 0x7FFFFFFF` is `% 2 ^ 31` and `& 0x3` is `% 4`. -/
def encodeState (stage : stage_t) (processed total : Nat) : Nat :=
  (stageNum stage % 4) * 2 ^ 62 + (processed % 2 ^ 31) * 2 ^ 31 + total % 2 ^ 31

/-- Embedding of `JobStateManager::decodeStage`: `(v >> 62) & 0x3`. -/
def decodeStage (v : Nat) : stage_t :=
  stageOfNat (v / 2 ^ 62 % 4)

/-- Embedding of `JobStateManager::decodeProcessed`: `(v >> 31) & 0x7FFFFFFF`. -/
def decodeProcessed (v : Nat) : Nat :=
  v / 2 ^ 31 % 2 ^ 31

/-- Embedding of `JobStateManager::decodeTotal`: `v & 0x7FFFFFFF`. -/
def decodeTotal (v : Nat) : Nat :=
  v % 2 ^ 31

/-- Effect on the progress word of one successful CAS iteration of
`JobStateManager::incrementProcessed`: re-encode with `processed + 1`. -/
def incrementProcessed (v : Nat) : Nat :=
  encodeState (decodeStage v) (decodeProcessed v + 1) (decodeTotal v)

/-- Effect on the progress word of one successful CAS iteration of
`JobStateManager::setTotal`: keep the stage, reset processed to 0. -/
def setTotal (newTotal : Nat) (v : Nat) : Nat :=
  encodeState (decodeStage v) 0 newTotal

/-- Effect on the progress word of one successful CAS iteration of
`JobStateManager::setStage`: keep the total, reset processed to 0. -/
def setStage (newStage : stage_t) (v : Nat) : Nat :=
  encodeState newStage 0 (decodeTotal v)

/-- Embedding of `JobStateManager::updateState`: a single store of the
freshly encoded triple. -/
def updateState (stage : stage_t) (processed total : Nat) : Nat :=
  encodeState stage processed total

/-- Words successively stored into the progress word by thread 0 when it
moves from MAP to the shuffle loop, read off `threadFunc` and
`shufflePhase`: first `setStage(SHUFFLE_STAGE)` (which keeps the MAP-stage
total), then, inside `shufflePhase`, `setTotal(totalPairs)`.  `w` is the
word at the end of the map phase and `tp` the summed buffer sizes. -/
def shuffleTransition (w tp : Nat) : List Nat :=
  [setStage .SHUFFLE_STAGE w, setTotal tp (setStage .SHUFFLE_STAGE w)]

/-- Upper bound used by `getJobState`, the C++ `MAX_PERCENTAGE 100.0f`.
The C++ `float` percentage is modelled as a rational number. -/
def MAX_PERCENTAGE : ℚ := 100

/-- Embedding of the C++ `JobState` struct. -/
structure JobState where
  stage : stage_t
  percentage : ℚ
deriving DecidableEq

/-- Embedding of `getJobState`.  A job handle is `none` for the null handle,
or the current packed progress word of the job.  On a null handle the C++
writes `REDUCE_STAGE` and `MAX_PERCENTAGE`; otherwise it decodes the word
and computes `min(processed/total · 100, 100)`, reporting 100 when the
total is zero. -/
def getJobState (job : Option Nat) : JobState :=
  match job with
  | none => ⟨.REDUCE_STAGE, MAX_PERCENTAGE⟩
  | some v =>
      let numProcessed := decodeProcessed v
      let numTotal := decodeTotal v
      ⟨decodeStage v,
        if numTotal = 0 then MAX_PERCENTAGE
        else min ((numProcessed : ℚ) / (numTotal : ℚ) * MAX_PERCENTAGE) MAX_PERCENTAGE⟩

/-- Embedding of the entry check of `startMapReduceJob`: an empty input
returns the null handle before any job state is allocated; otherwise the
job context is built from the input.  `mkCtx` stands for the context
construction and thread spawning. -/
def startMapReduceJob {I C : Type} (inputVec : List I) (mkCtx : List I → C) :
    Option C :=
  if inputVec.isEmpty then none else some (mkCtx inputVec)

/-- Embedding of `waitForJob` as a state transformer: a null handle returns
immediately, otherwise every worker is joined (`joinAll`). -/
def waitForJob {C S : Type} (job : Option C) (joinAll : C → S → S) (s : S) : S :=
  match job with
  | none => s
  | some c => joinAll c s

/-- Embedding of `closeJobHandle`: a null handle returns immediately,
otherwise the job is waited for and then its context released. -/
def closeJobHandle {C S : Type} (job : Option C) (joinAll : C → S → S)
    (release : C → S → S) (s : S) : S :=
  match job with
  | none => s
  | some c => release c (joinAll c s)

section Shuffle

variable {K V A O : Type}

/-- Strict weak order laws for the `Bool`-valued comparator on `K2` keys,
the contract the framework requires of the client's `operator<`:
irreflexivity, transitivity, and transitivity of the complement
(equivalently, transitivity of incomparability). -/
structure IsSWO (lt : K → K → Bool) : Prop where
  irrefl : ∀ a, lt a a = false
  lt_trans : ∀ a b c, lt a b = true → lt b c = true → lt a c = true
  not_lt_trans : ∀ a b c, lt a b = false → lt b c = false → lt a c = false

/-- Incomparability of two keys: neither `a < b` nor `b < a`. -/
def equivK (lt : K → K → Bool) (a b : K) : Bool :=
  !(lt a b) && !(lt b a)

/-- Condition of the inner `while` of `shufflePhase` on a pair at the back
of a buffer: `!(*vec.back().first < *maxKey) && !(*maxKey < *vec.back().first)`. -/
def keyMatches (lt : K → K → Bool) (maxKey : K) (p : K × V) : Bool :=
  !(lt p.1 maxKey) && !(lt maxKey p.1)

/-- Accumulator loop of the max-key scan in `shufflePhase`: for each
nonempty buffer consider its back element's key as candidate; replace the
running max when `maxKey == nullptr || *maxKey < *candidate`. -/
def findMaxKeyAux (lt : K → K → Bool) :
    Option K → List (List (K × V)) → Option K
  | maxKey, [] => maxKey
  | maxKey, vec :: rest =>
    match vec with
    | [] => findMaxKeyAux lt maxKey rest
    | (candidate, _) :: _ =>
      match maxKey with
      | none => findMaxKeyAux lt (some candidate) rest
      | some m =>
        findMaxKeyAux lt (if lt m candidate then some candidate else some m) rest

/-- Max-key scan of one round of `shufflePhase`, over all buffers. -/
def findMaxKey (lt : K → K → Bool) (bufs : List (List (K × V))) : Option K :=
  findMaxKeyAux lt none bufs

/-- Pairs moved into the new group in one round of `shufflePhase`: for each
buffer, in order, pop from the back while the back's key is equivalent to
`maxKey`. -/
def collectGroup (lt : K → K → Bool) (maxKey : K)
    (bufs : List (List (K × V))) : List (K × V) :=
  (bufs.map (fun vec => vec.takeWhile (keyMatches lt maxKey))).flatten

/-- The per-worker buffers after one round of `shufflePhase`: each buffer
with its popped back segment removed. -/
def dropGroup (lt : K → K → Bool) (maxKey : K)
    (bufs : List (List (K × V))) : List (List (K × V)) :=
  bufs.map (fun vec => vec.dropWhile (keyMatches lt maxKey))

/-- Outer loop of `shufflePhase`: find the max back key; if none, stop;
otherwise move the whole equivalence class of the max key into a fresh
group, increment the shuffle counter, and repeat.  The C++ loop `while
(true)` terminates because each round pops at least one pair; the fuel
argument, instantiated with the total number of pairs in `shufflePhase`
below, makes that measure explicit. -/
def shuffleRounds (lt : K → K → Bool) :
    Nat → List (List (K × V)) → List (List (K × V)) × Nat
  | 0, _ => ([], 0)
  | fuel + 1, bufs =>
    match findMaxKey lt bufs with
    | none => ([], 0)
    | some maxKey =>
      let res := shuffleRounds lt fuel (dropGroup lt maxKey bufs)
      (collectGroup lt maxKey bufs :: res.1, res.2 + 1)

/-- Total number of intermediate pairs over all buffers, the quantity
summed at the start of `shufflePhase`. -/
def totalPairs (bufs : List (List (K × V))) : Nat :=
  (bufs.map List.length).sum

/-- Embedding of `shufflePhase`: the shuffled groups together with the
final value of the `shuffleCounter` atomic (incremented once per group). -/
def shufflePhase (lt : K → K → Bool) (bufs : List (List (K × V))) :
    List (List (K × V)) × Nat :=
  shuffleRounds lt (totalPairs bufs) bufs

/-- The `shuffledData` vector after the shuffle phase. -/
def shuffledData (lt : K → K → Bool) (bufs : List (List (K × V))) :
    List (List (K × V)) :=
  (shufflePhase lt bufs).1

/-- The `shuffleCounter` value after the shuffle phase. -/
def shuffleCounter (lt : K → K → Bool) (bufs : List (List (K × V))) : Nat :=
  (shufflePhase lt bufs).2

/-- A buffer as the shuffle coordinator sees it: sorted ascending by
`sortPhase` and drained from the back.  In the back-first list
representation, consecutive elements `a, b` satisfy `lt a.1 b.1 = false`. -/
def SortedBuf (lt : K → K → Bool) (buf : List (K × V)) : Prop :=
  List.Chain' (fun a b => lt a.1 b.1 = false) buf

instance sortedBufDec (lt : K → K → Bool) :
    ∀ buf : List (K × V), Decidable (SortedBuf lt buf)
  | [] => isTrue List.chain'_nil
  | [p] => isTrue (List.chain'_singleton p)
  | p :: q :: rest =>
    match sortedBufDec lt (q :: rest) with
    | isTrue hr =>
      if hpq : lt p.1 q.1 = false then
        isTrue (List.chain'_cons.mpr ⟨hpq, hr⟩)
      else isFalse (fun hc => hpq (List.chain'_cons.mp hc).1)
    | isFalse hr => isFalse (fun hc => hr (List.chain'_cons.mp hc).2)

/-- Number of distinct equivalence classes (under incomparability) among a
list of keys: count a key, discard the rest of its class, recurse. -/
def numClasses (lt : K → K → Bool) : List K → Nat
  | [] => 0
  | k :: rest => 1 + numClasses lt (rest.filter fun j => !(equivK lt k j))
termination_by l => l.length
decreasing_by
  simp only [List.length_cons]
  exact Nat.lt_succ_of_le (List.length_filter_le _ _)

/-- Sequential skeleton of `reducePhase`: the reduce loop fetches indices
`0, 1, …` and stops at `shuffleCounter`, invoking the client's reduce on
`shuffledData[index]` for each fetched index; one entry below per
invocation. -/
def reducePhase (reduceF : List (K × V) → List O)
    (shuffled : List (List (K × V))) (counter : Nat) : List (List O) :=
  (List.range counter).map fun i => reduceF (shuffled.getD i [])

/-- Single step of the insertion sort that models `std::sort` with the
comparator `*a.first < *b.first`, in the back-first list orientation
(larger keys towards the head). -/
def insertPair (lt : K → K → Bool) (p : K × V) :
    List (K × V) → List (K × V)
  | [] => [p]
  | q :: rest => if lt q.1 p.1 then p :: q :: rest else q :: insertPair lt p rest

/-- Embedding of `sortPhase`: sort a worker's buffer by key.  The C++ sorts
ascending and drains from the back; in the back-first orientation the
sorted buffer is non-increasing from the head. -/
def sortPhase (lt : K → K → Bool) (l : List (K × V)) : List (K × V) :=
  l.foldr (insertPair lt) []

/-- Sequential skeleton of `mapPhase` for one worker: the map outputs of
the input pairs the worker fetched, appended in fetch order via `emit2`. -/
def mapPhase (mapF : A → List (K × V)) (chunk : List A) : List (K × V) :=
  (chunk.map mapF).flatten

/-- The per-worker buffers at the first barrier: each worker maps its
dynamically fetched chunk of the input and sorts its own buffer.
`partition` lists, per worker, the input pairs that worker fetched. -/
def workerBuffers (lt : K → K → Bool) (mapF : A → List (K × V))
    (partition : List (List A)) : List (List (K × V)) :=
  partition.map fun chunk => sortPhase lt (mapPhase mapF chunk)

/-- End-to-end output of a job, as the list of all pairs appended to the
output vector: map and sort per worker, coordinator shuffle, then the
reduce outputs of the groups in group order (`emit3` only interleaves
appends, which does not change the multiset). -/
def runJob (lt : K → K → Bool) (mapF : A → List (K × V))
    (reduceF : List (K × V) → List O) (input : List A)
    (partition : List (List A)) : List O :=
  ((shuffledData lt (workerBuffers lt mapF partition)).map reduceF).flatten


end Shuffle

/-- Concrete comparator on natural-number keys used in witnesses and
counterexamples: the usual order on `Nat`, a strict weak (indeed total)
order. -/
def natLt (a b : Nat) : Bool :=
  decide (a < b)

/-- Concrete client map used in the counterexample to output independence:
every input element `v` becomes one intermediate pair `(5, v)` — all
intermediate keys are equal, all values distinct. -/
def exMap (v : Nat) : List (Nat × Nat) :=
  [(5, v)]

/-- Concrete pure but order-sensitive client reduce used in the
counterexample: emit the value of the first pair of the group. -/
def exReduce (g : List (Nat × Nat)) : List Nat :=
  [(g.headD (0, 0)).2]

theorem stageNum_lt_four (s : stage_t) : stageNum s < 4 := by
  cases s <;> simp [stageNum]

theorem stageOfNat_stageNum (s : stage_t) : stageOfNat (stageNum s) = s := by
  cases s <;> rfl

theorem decodeStage_encode (s : stage_t) (p t : Nat) :
    decodeStage (encodeState s p t) = s := by
  have hs := stageNum_lt_four s
  have h : encodeState s p t / 2 ^ 62 % 4 = stageNum s := by
    unfold encodeState
    omega
  unfold decodeStage
  rw [h, stageOfNat_stageNum]

theorem decodeProcessed_encode (s : stage_t) (p t : Nat) :
    decodeProcessed (encodeState s p t) = p % 2 ^ 31 := by
  have hs := stageNum_lt_four s
  unfold decodeProcessed encodeState
  omega

theorem decodeTotal_encode (s : stage_t) (p t : Nat) :
    decodeTotal (encodeState s p t) = t % 2 ^ 31 := by
  have hs := stageNum_lt_four s
  unfold decodeTotal encodeState
  omega

/-- C6: for every stage `s` and all `p, t ≤ 2^31 − 1`, decoding the packed
64-bit word produced by `encodeState s p t` with `decodeStage`,
`decodeProcessed` and `decodeTotal` recovers exactly the triple `(s, p, t)`;
hence any single load of the word yields a mutually consistent triple. -/
theorem encode_decode_roundtrip (s : stage_t) (p t : Nat)
    (hp : p ≤ 2 ^ 31 - 1) (ht : t ≤ 2 ^ 31 - 1) :
    decodeStage (encodeState s p t) = s ∧
    decodeProcessed (encodeState s p t) = p ∧
    decodeTotal (encodeState s p t) = t := by
  refine ⟨decodeStage_encode s p t, ?_, ?_⟩
  · rw [decodeProcessed_encode]
    omega
  · rw [decodeTotal_encode]
    omega

theorem encode_decode_roundtrip_witness :
    (5 ≤ 2 ^ 31 - 1) ∧ (7 ≤ 2 ^ 31 - 1) ∧
    (decodeStage (encodeState .MAP_STAGE 5 7) = .MAP_STAGE ∧
     decodeProcessed (encodeState .MAP_STAGE 5 7) = 5 ∧
     decodeTotal (encodeState .MAP_STAGE 5 7) = 7) :=
  ⟨by norm_num, by norm_num,
    encode_decode_roundtrip .MAP_STAGE 5 7 (by norm_num) (by norm_num)⟩

/-- C7: one call to `incrementProcessed` turns decoded processed `p` into
`(p + 1) % 2^31`, so the decoded processed field always stays within
31 bits, i.e. never exceeds `2^31 − 1`. -/
theorem incrementProcessed_mod (v : Nat) :
    decodeProcessed (incrementProcessed v) = (decodeProcessed v + 1) % 2 ^ 31 ∧
    decodeProcessed (incrementProcessed v) ≤ 2 ^ 31 - 1 := by
  unfold incrementProcessed
  rw [decodeProcessed_encode]
  refine ⟨rfl, ?_⟩
  have := Nat.mod_lt (decodeProcessed v + 1) (show 0 < 2 ^ 31 by norm_num)
  omega

/-- C10: `incrementProcessed` modifies only the processed field: the decoded
stage and decoded total of the progress word are unchanged by the call. -/
theorem incrementProcessed_frame (v : Nat) :
    decodeStage (incrementProcessed v) = decodeStage v ∧
    decodeTotal (incrementProcessed v) = decodeTotal v := by
  unfold incrementProcessed
  refine ⟨decodeStage_encode _ _ _, ?_⟩
  rw [decodeTotal_encode]
  unfold decodeTotal
  omega

/-- C8 counterexample: the MAP→SHUFFLE transition is two stores, not one;
with input size 5 and 9 intermediate pairs the first stored word already
has stage `SHUFFLE_STAGE` while its total is still the MAP total 5, so an
observer loading between the stores reads (SHUFFLE, 0, 5), not
(SHUFFLE, 0, 9). -/
theorem shuffle_transition_intermediate_observable :
    (shuffleTransition (encodeState .MAP_STAGE 5 5) 9).length = 2 ∧
    (shuffleTransition (encodeState .MAP_STAGE 5 5) 9).head? =
      some (encodeState .SHUFFLE_STAGE 0 5) ∧
    decodeStage (encodeState .SHUFFLE_STAGE 0 5) = .SHUFFLE_STAGE ∧
    decodeTotal (encodeState .SHUFFLE_STAGE 0 5) = 5 ∧
    encodeState .SHUFFLE_STAGE 0 5 ≠ encodeState .SHUFFLE_STAGE 0 9 := by
  refine ⟨rfl, ?_, rfl, by decide, by decide⟩
  · rfl

/-- C8 amended: the transition into SHUFFLE is performed as two atomic
stores: `setStage SHUFFLE_STAGE` first publishes the word
`encodeState SHUFFLE_STAGE 0 (decodeTotal w)` — stage SHUFFLE with the
MAP-stage total preserved and processed reset — and only the second store,
`setTotal`, publishes `encodeState SHUFFLE_STAGE 0 tp` with the
intermediate-pair total. -/
theorem shuffle_transition_two_stores (w tp : Nat) :
    shuffleTransition w tp =
      [encodeState .SHUFFLE_STAGE 0 (decodeTotal w),
       encodeState .SHUFFLE_STAGE 0 tp] := by
  unfold shuffleTransition setTotal setStage
  rw [decodeStage_encode]

/-- C9: `startMapReduceJob` on an empty input returns the null handle
without creating any job state; `getJobState` on a null handle writes
stage `REDUCE_STAGE` and percentage 100; and `waitForJob` and
`closeJobHandle` on a null handle return immediately with no effect. -/
theorem null_handle_behavior {I C S : Type} (mkCtx : List I → C)
    (joinAll : C → S → S) (release : C → S → S) (s : S) :
    startMapReduceJob ([] : List I) mkCtx = none ∧
    getJobState none = ⟨.REDUCE_STAGE, 100⟩ ∧
    waitForJob (none : Option C) joinAll s = s ∧
    closeJobHandle (none : Option C) joinAll release s = s :=
  ⟨rfl, rfl, rfl, rfl⟩

section ShuffleLemmas

variable {K V A O : Type} {lt : K → K → Bool}

theorem IsSWO.asymm (h : IsSWO lt) {a b : K} (hab : lt a b = true) :
    lt b a = false := by
  cases hba : lt b a with
  | false => rfl
  | true => exact absurd (h.lt_trans a b a hab hba) (by simp [h.irrefl a])

theorem equivK_iff {a b : K} :
    equivK lt a b = true ↔ lt a b = false ∧ lt b a = false := by
  simp [equivK, Bool.and_eq_true, Bool.not_eq_true']

theorem equivK_refl (h : IsSWO lt) (a : K) : equivK lt a a = true :=
  equivK_iff.mpr ⟨h.irrefl a, h.irrefl a⟩

theorem keyMatches_eq_equivK (m : K) (p : K × V) :
    keyMatches lt m p = equivK lt m p.1 := by
  simp [keyMatches, equivK, Bool.and_comm]

theorem lt_congr_left (h : IsSWO lt) {a b : K} (hab : lt a b = false)
    (hba : lt b a = false) (c : K) : lt a c = lt b c := by
  cases hac : lt a c with
  | false =>
    cases hbc : lt b c with
    | false => rfl
    | true => exact absurd (h.not_lt_trans b a c hba hac) (by simp [hbc])
  | true =>
    cases hbc : lt b c with
    | false => exact absurd (h.not_lt_trans a b c hab hbc) (by simp [hac])
    | true => rfl

theorem lt_congr_right (h : IsSWO lt) {a b : K} (hab : lt a b = false)
    (hba : lt b a = false) (c : K) : lt c a = lt c b := by
  cases hca : lt c a with
  | false =>
    cases hcb : lt c b with
    | false => rfl
    | true => exact absurd (h.not_lt_trans c a b hca hab) (by simp [hcb])
  | true =>
    cases hcb : lt c b with
    | false => exact absurd (h.not_lt_trans c b a hcb hba) (by simp [hca])
    | true => rfl

theorem equivK_congr (h : IsSWO lt) {a b : K} (hab : equivK lt a b = true)
    (c : K) : equivK lt a c = equivK lt b c := by
  obtain ⟨h1, h2⟩ := equivK_iff.mp hab
  unfold equivK
  rw [lt_congr_left h h1 h2 c, lt_congr_right h h1 h2 c]

theorem equivK_trans (h : IsSWO lt) {a b c : K} (hab : equivK lt a b = true)
    (hbc : equivK lt b c = true) : equivK lt a c = true := by
  rw [equivK_congr h hab c]
  exact hbc

theorem equivK_symm {a b : K} (hab : equivK lt a b = true) :
    equivK lt b a = true := by
  obtain ⟨h1, h2⟩ := equivK_iff.mp hab
  exact equivK_iff.mpr ⟨h2, h1⟩

theorem sortedBuf_head_le (h : IsSWO lt) :
    ∀ {rest : List (K × V)} {p : K × V}, SortedBuf lt (p :: rest) →
      ∀ q ∈ p :: rest, lt p.1 q.1 = false := by
  intro rest
  induction rest with
  | nil =>
    intro p _ q hq
    rw [List.mem_singleton.mp hq]
    exact h.irrefl p.1
  | cons r rest' ih =>
    intro p hs q hq
    have hpr : lt p.1 r.1 = false := (List.chain'_cons.mp hs).1
    have hs' : SortedBuf lt (r :: rest') := (List.chain'_cons.mp hs).2
    rcases List.mem_cons.mp hq with hq | hq
    · subst hq
      exact h.irrefl q.1
    · exact h.not_lt_trans p.1 r.1 q.1 hpr (ih hs' q hq)

theorem sortedBuf_dropWhile (f : K × V → Bool) :
    ∀ {buf : List (K × V)}, SortedBuf lt buf →
      SortedBuf lt (buf.dropWhile f) := by
  intro buf
  induction buf with
  | nil => intro _; exact List.chain'_nil
  | cons p rest ih =>
    intro hs
    rw [List.dropWhile_cons]
    by_cases hf : f p = true
    · simp only [hf, if_true]
      exact ih (List.Chain'.tail hs)
    · simp only [hf, if_false]
      exact hs

theorem findMaxKeyAux_none (lt : K → K → Bool) :
    ∀ (bufs : List (List (K × V))) (acc : Option K),
      findMaxKeyAux lt acc bufs = none →
      acc = none ∧ ∀ buf ∈ bufs, buf = [] := by
  intro bufs
  induction bufs with
  | nil =>
    intro acc hacc
    simp only [findMaxKeyAux] at hacc
    exact ⟨hacc, by simp⟩
  | cons vec bs ih =>
    intro acc hacc
    cases vec with
    | nil =>
      simp only [findMaxKeyAux] at hacc
      obtain ⟨h1, h2⟩ := ih acc hacc
      refine ⟨h1, ?_⟩
      intro buf hbuf
      rcases List.mem_cons.mp hbuf with hbuf | hbuf
      · exact hbuf
      · exact h2 buf hbuf
    | cons cv vec' =>
      obtain ⟨c, v⟩ := cv
      cases acc with
      | none =>
        simp only [findMaxKeyAux] at hacc
        obtain ⟨h1, _⟩ := ih (some c) hacc
        cases h1
      | some m =>
        simp only [findMaxKeyAux] at hacc
        obtain ⟨h1, _⟩ := ih (if lt m c then some c else some m) hacc
        by_cases hmc : lt m c = true
        · rw [if_pos hmc] at h1
          cases h1
        · rw [if_neg hmc] at h1
          cases h1

theorem findMaxKeyAux_max (h : IsSWO lt) :
    ∀ (bufs : List (List (K × V))) (acc : Option K) (m : K),
      findMaxKeyAux lt acc bufs = some m →
      (∀ k, acc = some k → lt m k = false) ∧
      (∀ buf ∈ bufs, ∀ p rest, buf = p :: rest → lt m p.1 = false) := by
  intro bufs
  induction bufs with
  | nil =>
    intro acc m hm
    simp only [findMaxKeyAux] at hm
    subst hm
    refine ⟨?_, by simp⟩
    intro k hk
    injection hk with he
    subst he
    exact h.irrefl _
  | cons vec bs ih =>
    intro acc m hm
    cases vec with
    | nil =>
      simp only [findMaxKeyAux] at hm
      obtain ⟨h1, h2⟩ := ih acc m hm
      refine ⟨h1, ?_⟩
      intro buf hbuf p rest hb
      rcases List.mem_cons.mp hbuf with hbuf | hbuf
      · subst hbuf
        cases hb
      · exact h2 buf hbuf p rest hb
    | cons cv vec' =>
      obtain ⟨c, v⟩ := cv
      have keep : ∀ (acc' : Option K),
          findMaxKeyAux lt acc' bs = some m → lt m c = false →
          (∀ k, acc' = some k → lt m k = false) →
          (∀ k, acc = some k → lt m k = false) →
          (∀ k, acc = some k → lt m k = false) ∧
          (∀ buf ∈ ((c, v) :: vec') :: bs, ∀ p rest, buf = p :: rest →
            lt m p.1 = false) := by
        intro acc' hrec hmc _ hacc
        obtain ⟨_, h2⟩ := ih acc' m hrec
        refine ⟨hacc, ?_⟩
        intro buf hbuf p rest hb
        rcases List.mem_cons.mp hbuf with hbuf | hbuf
        · subst hbuf
          injection hb with hb1 hb2
          rw [← hb1]
          exact hmc
        · exact h2 buf hbuf p rest hb
      cases acc with
      | none =>
        simp only [findMaxKeyAux] at hm
        obtain ⟨h1, _⟩ := ih (some c) m hm
        have hmc : lt m c = false := h1 c rfl
        exact keep (some c) hm hmc h1 (by simp)
      | some k =>
        simp only [findMaxKeyAux] at hm
        by_cases hkc : lt k c = true
        · rw [if_pos hkc] at hm
          obtain ⟨h1, _⟩ := ih (some c) m hm
          have hmc : lt m c = false := h1 c rfl
          have hmk : lt m k = false := by
            cases hv : lt m k with
            | false => rfl
            | true => exact absurd (h.lt_trans m k c hv hkc) (by simp [hmc])
          refine keep (some c) hm hmc h1 ?_
          intro k' hk'
          injection hk' with he
          subst he
          exact hmk
        · have hkc' : lt k c = false := Bool.not_eq_true _ ▸ eq_false_of_ne_true hkc
          rw [if_neg hkc] at hm
          obtain ⟨h1, _⟩ := ih (some k) m hm
          have hmk : lt m k = false := h1 k rfl
          have hmc : lt m c = false := h.not_lt_trans m k c hmk hkc'
          refine keep (some k) hm hmc h1 ?_
          intro k' hk'
          injection hk' with he
          subst he
          exact hmk

theorem findMaxKeyAux_mem (lt : K → K → Bool) :
    ∀ (bufs : List (List (K × V))) (acc : Option K) (m : K),
      findMaxKeyAux lt acc bufs = some m →
      acc = some m ∨ ∃ buf ∈ bufs, ∃ v rest, buf = (m, v) :: rest := by
  intro bufs
  induction bufs with
  | nil =>
    intro acc m hm
    simp only [findMaxKeyAux] at hm
    exact Or.inl hm
  | cons vec bs ih =>
    intro acc m hm
    cases vec with
    | nil =>
      simp only [findMaxKeyAux] at hm
      rcases ih acc m hm with h1 | ⟨buf, hbuf, v, rest, hb⟩
      · exact Or.inl h1
      · exact Or.inr ⟨buf, List.mem_cons_of_mem _ hbuf, v, rest, hb⟩
    | cons cv vec' =>
      obtain ⟨c, v₀⟩ := cv
      cases acc with
      | none =>
        simp only [findMaxKeyAux] at hm
        rcases ih (some c) m hm with h1 | ⟨buf, hbuf, v, rest, hb⟩
        · injection h1 with he
          subst he
          exact Or.inr ⟨(c, v₀) :: vec', List.mem_cons_self _ _, v₀, vec', rfl⟩
        · exact Or.inr ⟨buf, List.mem_cons_of_mem _ hbuf, v, rest, hb⟩
      | some k =>
        simp only [findMaxKeyAux] at hm
        by_cases hkc : lt k c = true
        · rw [if_pos hkc] at hm
          rcases ih (some c) m hm with h1 | ⟨buf, hbuf, v, rest, hb⟩
          · injection h1 with he
            subst he
            exact Or.inr ⟨(c, v₀) :: vec', List.mem_cons_self _ _, v₀, vec', rfl⟩
          · exact Or.inr ⟨buf, List.mem_cons_of_mem _ hbuf, v, rest, hb⟩
        · rw [if_neg hkc] at hm
          rcases ih (some k) m hm with h1 | ⟨buf, hbuf, v, rest, hb⟩
          · exact Or.inl h1
          · exact Or.inr ⟨buf, List.mem_cons_of_mem _ hbuf, v, rest, hb⟩

theorem findMaxKey_none (lt : K → K → Bool) {bufs : List (List (K × V))}
    (hn : findMaxKey lt bufs = none) : ∀ buf ∈ bufs, buf = [] :=
  (findMaxKeyAux_none lt bufs none hn).2

theorem findMaxKey_of_all_nil (lt : K → K → Bool) :
    ∀ {bufs : List (List (K × V))}, (∀ buf ∈ bufs, buf = []) →
      findMaxKey lt bufs = none := by
  intro bufs
  induction bufs with
  | nil => intro _; rfl
  | cons vec bs ih =>
    intro hall
    have hv : vec = [] := hall vec (List.mem_cons_self _ _)
    subst hv
    exact ih fun buf hbuf => hall buf (List.mem_cons_of_mem _ hbuf)

theorem findMaxKey_mem {bufs : List (List (K × V))} {m : K}
    (hm : findMaxKey lt bufs = some m) :
    ∃ buf ∈ bufs, ∃ v rest, buf = (m, v) :: rest := by
  rcases findMaxKeyAux_mem lt bufs none m hm with h1 | h2
  · cases h1
  · exact h2

theorem findMaxKey_ge_heads (h : IsSWO lt) {bufs : List (List (K × V))} {m : K}
    (hm : findMaxKey lt bufs = some m) :
    ∀ buf ∈ bufs, ∀ p rest, buf = p :: rest → lt m p.1 = false :=
  (findMaxKeyAux_max h bufs none m hm).2

theorem findMaxKey_ge_all (h : IsSWO lt) {bufs : List (List (K × V))} {m : K}
    (hs : ∀ buf ∈ bufs, SortedBuf lt buf)
    (hm : findMaxKey lt bufs = some m) :
    ∀ p ∈ bufs.flatten, lt m p.1 = false := by
  intro p hp
  obtain ⟨buf, hbuf, hpbuf⟩ := List.mem_flatten.mp hp
  cases buf with
  | nil => cases hpbuf
  | cons q rest =>
    have hq : lt m q.1 = false := findMaxKey_ge_heads h hm (q :: rest) hbuf q rest rfl
    have hqp : lt q.1 p.1 = false :=
      sortedBuf_head_le h (hs (q :: rest) hbuf) p hpbuf
    exact h.not_lt_trans m q.1 p.1 hq hqp

theorem keyMatches_false_of_lt {m : K} {p : K × V} (hpm : lt p.1 m = true) :
    keyMatches lt m p = false := by
  simp [keyMatches, hpm]

theorem lt_of_keyMatches_false {m : K} {p : K × V} (hdom : lt m p.1 = false)
    (hf : keyMatches lt m p = false) : lt p.1 m = true := by
  simp [keyMatches, hdom] at hf
  exact hf

theorem mem_collectGroup {m : K} {bufs : List (List (K × V))} {p : K × V}
    (hp : p ∈ collectGroup lt m bufs) :
    keyMatches lt m p = true ∧ ∃ buf ∈ bufs, p ∈ buf := by
  unfold collectGroup at hp
  obtain ⟨l, hl, hpl⟩ := List.mem_flatten.mp hp
  obtain ⟨buf, hbuf, rfl⟩ := List.mem_map.mp hl
  exact ⟨List.mem_takeWhile_imp hpl, buf, hbuf,
    (List.takeWhile_sublist _).subset hpl⟩

theorem takeWhile_filter_of_sorted (h : IsSWO lt) {m : K} :
    ∀ {buf : List (K × V)}, SortedBuf lt buf →
      (∀ p ∈ buf, lt m p.1 = false) →
      buf.takeWhile (keyMatches lt m) = buf.filter (keyMatches lt m) ∧
      buf.dropWhile (keyMatches lt m) =
        buf.filter (fun p => !(keyMatches lt m p)) := by
  intro buf
  induction buf with
  | nil => intro _ _; exact ⟨rfl, rfl⟩
  | cons q rest ih =>
    intro hs hdom
    by_cases hq : keyMatches lt m q = true
    · obtain ⟨h1, h2⟩ := ih (List.Chain'.tail hs)
        (fun p hp => hdom p (List.mem_cons_of_mem _ hp))
      refine ⟨?_, ?_⟩
      · rw [List.takeWhile_cons, List.filter_cons]
        simp [hq, h1]
      · rw [List.dropWhile_cons, List.filter_cons]
        simp [hq, h2]
    · have hq' : keyMatches lt m q = false := eq_false_of_ne_true hq
      have hall : ∀ p ∈ q :: rest, keyMatches lt m p = false := by
        intro p hp
        have hdomp : lt m p.1 = false := hdom p hp
        have hqp : lt q.1 p.1 = false := sortedBuf_head_le h hs p hp
        have hqm : lt q.1 m = true :=
          lt_of_keyMatches_false (hdom q (List.mem_cons_self _ _)) hq'
        have hpm : lt p.1 m = true := by
          cases hv : lt p.1 m with
          | true => rfl
          | false => exact absurd (h.not_lt_trans q.1 p.1 m hqp hv) (by simp [hqm])
        exact keyMatches_false_of_lt hpm
      refine ⟨?_, ?_⟩
      · rw [List.takeWhile_cons]
        have hnil : List.filter (keyMatches lt m) (q :: rest) = [] := by
          rw [List.filter_eq_nil_iff]
          intro a ha
          simp [hall a ha]
        simp [hq', hnil]
      · rw [List.dropWhile_cons]
        have hself : List.filter (fun p => !(keyMatches lt m p)) (q :: rest)
            = q :: rest := by
          rw [List.filter_eq_self]
          intro a ha
          simp [hall a ha]
        simp [hq', hself]

theorem flatten_map_filter (f : K × V → Bool) :
    ∀ bufs : List (List (K × V)),
      (bufs.map (fun b => b.filter f)).flatten = bufs.flatten.filter f := by
  intro bufs
  induction bufs with
  | nil => rfl
  | cons b bs ih =>
    simp only [List.map_cons, List.flatten_cons, List.filter_append, ih]

theorem collectGroup_eq_filter (h : IsSWO lt) {m : K}
    {bufs : List (List (K × V))} (hs : ∀ buf ∈ bufs, SortedBuf lt buf)
    (hdom : ∀ p ∈ bufs.flatten, lt m p.1 = false) :
    collectGroup lt m bufs = bufs.flatten.filter (keyMatches lt m) := by
  unfold collectGroup
  have hmap : bufs.map (fun vec => vec.takeWhile (keyMatches lt m))
      = bufs.map (fun vec => vec.filter (keyMatches lt m)) :=
    List.map_congr_left (fun buf hbuf =>
      (takeWhile_filter_of_sorted h (hs buf hbuf)
        (fun p hp => hdom p (List.mem_flatten.mpr ⟨buf, hbuf, hp⟩))).1)
  rw [hmap, flatten_map_filter]

theorem dropGroup_eq_filter (h : IsSWO lt) {m : K} :
    ∀ {bufs : List (List (K × V))}, (∀ buf ∈ bufs, SortedBuf lt buf) →
      (∀ p ∈ bufs.flatten, lt m p.1 = false) →
      (dropGroup lt m bufs).flatten
        = bufs.flatten.filter (fun p => !(keyMatches lt m p)) := by
  intro bufs
  have hmap : ∀ {bs : List (List (K × V))}, (∀ buf ∈ bs, SortedBuf lt buf) →
      (∀ p ∈ bs.flatten, lt m p.1 = false) →
      bs.map (fun vec => vec.dropWhile (keyMatches lt m))
        = bs.map (fun vec => vec.filter (fun p => !(keyMatches lt m p))) := by
    intro bs hs hdom
    exact List.map_congr_left (fun buf hbuf =>
      (takeWhile_filter_of_sorted h (hs buf hbuf)
        (fun p hp => hdom p (List.mem_flatten.mpr ⟨buf, hbuf, hp⟩))).2)
  intro hs hdom
  unfold dropGroup
  rw [hmap hs hdom, flatten_map_filter]

theorem sorted_dropGroup {m : K} {bufs : List (List (K × V))}
    (hs : ∀ buf ∈ bufs, SortedBuf lt buf) :
    ∀ buf ∈ dropGroup lt m bufs, SortedBuf lt buf := by
  intro buf hbuf
  obtain ⟨b, hb, rfl⟩ := List.mem_map.mp hbuf
  exact sortedBuf_dropWhile _ (hs b hb)

theorem append_exchange_perm (t T d D : List (K × V)) :
    ((t ++ T) ++ (d ++ D)).Perm ((t ++ d) ++ (T ++ D)) := by
  have hinner : (T ++ (d ++ D)).Perm (d ++ (T ++ D)) := by
    have h1 : T ++ (d ++ D) = (T ++ d) ++ D := by rw [List.append_assoc]
    have h2 : d ++ (T ++ D) = (d ++ T) ++ D := by rw [List.append_assoc]
    rw [h1, h2]
    exact List.Perm.append_right _ List.perm_append_comm
  have h1 : (t ++ T) ++ (d ++ D) = t ++ (T ++ (d ++ D)) := by
    rw [List.append_assoc]
  have h2 : (t ++ d) ++ (T ++ D) = t ++ (d ++ (T ++ D)) := by
    rw [List.append_assoc]
  rw [h1, h2]
  exact List.Perm.append_left _ hinner

theorem collect_drop_perm (lt : K → K → Bool) (m : K) :
    ∀ bufs : List (List (K × V)),
      (collectGroup lt m bufs ++ (dropGroup lt m bufs).flatten).Perm
        bufs.flatten := by
  intro bufs
  induction bufs with
  | nil => simp [collectGroup, dropGroup]
  | cons buf bs ih =>
    simp only [collectGroup, dropGroup, List.map_cons, List.flatten_cons] at ih ⊢
    refine (append_exchange_perm _ _ _ _).trans ?_
    rw [List.takeWhile_append_dropWhile]
    exact List.Perm.append_left _ ih

theorem all_nil_of_totalPairs_zero :
    ∀ {bufs : List (List (K × V))}, totalPairs bufs = 0 →
      ∀ buf ∈ bufs, buf = [] := by
  intro bufs
  induction bufs with
  | nil => intro _ buf hbuf; cases hbuf
  | cons b bs ih =>
    intro h0 buf hbuf
    have hb : b.length = 0 ∧ totalPairs bs = 0 := by
      simp only [totalPairs, List.map_cons, List.sum_cons] at h0
      simp only [totalPairs]
      omega
    rcases List.mem_cons.mp hbuf with rfl | hbuf
    · exact List.length_eq_zero.mp hb.1
    · exact ih hb.2 buf hbuf

theorem totalPairs_dropGroup_le (lt : K → K → Bool) (m : K) :
    ∀ bufs : List (List (K × V)),
      totalPairs (dropGroup lt m bufs) ≤ totalPairs bufs := by
  intro bufs
  induction bufs with
  | nil => exact le_refl _
  | cons b bs ih =>
    simp only [dropGroup, totalPairs, List.map_cons, List.sum_cons] at ih ⊢
    exact Nat.add_le_add ((List.dropWhile_sublist _).length_le) ih

theorem totalPairs_dropGroup_lt (h : IsSWO lt) {bufs : List (List (K × V))}
    {m : K} (hm : findMaxKey lt bufs = some m) :
    totalPairs (dropGroup lt m bufs) < totalPairs bufs := by
  obtain ⟨buf, hbuf, v, rest, hb⟩ := findMaxKey_mem hm
  obtain ⟨pre, post, hsplit⟩ := List.append_of_mem hbuf
  subst hb
  subst hsplit
  have hkm : keyMatches lt m (m, v) = true := by
    rw [keyMatches_eq_equivK]
    exact equivK_refl h m
  have hdl : (((m, v) :: rest).dropWhile (keyMatches lt m)).length
      < ((m, v) :: rest).length := by
    rw [List.dropWhile_cons]
    simp only [hkm, if_true, List.length_cons]
    exact Nat.lt_succ_of_le ((List.dropWhile_sublist _).length_le)
  have h1 := totalPairs_dropGroup_le lt m pre
  have h2 := totalPairs_dropGroup_le lt m post
  simp only [dropGroup, totalPairs, List.map_append, List.map_cons,
    List.sum_append, List.sum_cons] at h1 h2 ⊢
  omega

theorem shuffleRounds_flatten_perm (h : IsSWO lt) :
    ∀ (fuel : Nat) (bufs : List (List (K × V))), totalPairs bufs ≤ fuel →
      (shuffleRounds lt fuel bufs).1.flatten.Perm bufs.flatten := by
  intro fuel
  induction fuel with
  | zero =>
    intro bufs hb
    have hnil : bufs.flatten = [] :=
      List.flatten_eq_nil_iff.mpr (all_nil_of_totalPairs_zero (Nat.le_zero.mp hb))
    simp [shuffleRounds, hnil]
  | succ fuel ih =>
    intro bufs hb
    cases hfm : findMaxKey lt bufs with
    | none =>
      have hnil : bufs.flatten = [] :=
        List.flatten_eq_nil_iff.mpr (findMaxKey_none lt hfm)
      simp [shuffleRounds, hfm, hnil]
    | some m =>
      have hlt := totalPairs_dropGroup_lt h hfm
      have hrec := ih (dropGroup lt m bufs) (by omega)
      simp only [shuffleRounds, hfm, List.flatten_cons]
      exact (List.Perm.append_left _ hrec).trans (collect_drop_perm lt m bufs)

theorem coe_sum_flatten (bufs : List (List (K × V))) :
    (bufs.map (fun buf => Multiset.ofList buf)).sum
      = (bufs.flatten : Multiset (K × V)) := by
  induction bufs with
  | nil => rfl
  | cons b bs ih =>
    rw [List.map_cons, List.sum_cons, List.flatten_cons, ih, Multiset.coe_add]

/-- C1: for every family of per-worker intermediate buffers (each sorted
under the strict weak order, in drain order), the multiset union of the
pairs in all buffers equals the multiset of intermediate pairs contained in
the shuffled groups produced by `shufflePhase`: every emitted pair ends up
in exactly one group and no pair is invented or lost. -/
theorem shuffle_preserves_multiset (lt : K → K → Bool)
    (bufs : List (List (K × V))) (h : IsSWO lt)
    (hs : ∀ buf ∈ bufs, SortedBuf lt buf) :
    (bufs.map (fun buf => Multiset.ofList buf)).sum
      = ((shuffledData lt bufs).flatten : Multiset (K × V)) := by
  have hperm := shuffleRounds_flatten_perm h (totalPairs bufs) bufs (le_refl _)
  rw [coe_sum_flatten]
  exact (Multiset.coe_eq_coe.mpr hperm).symm

theorem natLt_isSWO : IsSWO natLt := by
  constructor
  · intro a
    simp [natLt]
  · intro a b c hab hbc
    simp only [natLt, decide_eq_true_eq] at hab hbc ⊢
    omega
  · intro a b c hab hbc
    simp only [natLt, decide_eq_false_iff_not] at hab hbc ⊢
    omega

theorem shuffle_preserves_multiset_witness :
    IsSWO natLt ∧
    (∀ buf ∈ ([[(2, 0), (1, 1)], [(2, 5)]] : List (List (Nat × Nat))),
      SortedBuf natLt buf) ∧
    (([[(2, 0), (1, 1)], [(2, 5)]] : List (List (Nat × Nat))).map
        (fun buf => Multiset.ofList buf)).sum
      = ((shuffledData natLt [[(2, 0), (1, 1)], [(2, 5)]]).flatten
          : Multiset (Nat × Nat)) :=
  ⟨natLt_isSWO, by decide,
    shuffle_preserves_multiset natLt [[(2, 0), (1, 1)], [(2, 5)]]
      natLt_isSWO (by decide)⟩

theorem shuffleRounds_desc (h : IsSWO lt) :
    ∀ (fuel : Nat) (bufs : List (List (K × V))), totalPairs bufs ≤ fuel →
      (∀ buf ∈ bufs, SortedBuf lt buf) →
      List.Pairwise (fun g g' => ∀ p ∈ g, ∀ q ∈ g', lt q.1 p.1 = true)
        (shuffleRounds lt fuel bufs).1 ∧
      (∀ g ∈ (shuffleRounds lt fuel bufs).1, ∀ p ∈ g, p ∈ bufs.flatten) := by
  intro fuel
  induction fuel with
  | zero =>
    intro bufs _ _
    simp [shuffleRounds]
  | succ fuel ih =>
    intro bufs hb hs
    cases hfm : findMaxKey lt bufs with
    | none => simp [shuffleRounds, hfm]
    | some m =>
      have hdom : ∀ p ∈ bufs.flatten, lt m p.1 = false :=
        findMaxKey_ge_all h hs hfm
      have hlt := totalPairs_dropGroup_lt h hfm
      obtain ⟨ihp, ihm⟩ := ih (dropGroup lt m bufs) (by omega)
        (sorted_dropGroup hs)
      have hdropmem : ∀ q ∈ (dropGroup lt m bufs).flatten,
          q ∈ bufs.flatten ∧ keyMatches lt m q = false := by
        intro q hq
        rw [dropGroup_eq_filter h hs hdom] at hq
        have hmem := List.mem_filter.mp hq
        refine ⟨hmem.1, ?_⟩
        have h2 := hmem.2
        simp only [Bool.not_eq_true'] at h2
        exact h2
      simp only [shuffleRounds, hfm]
      constructor
      · refine List.pairwise_cons.mpr ⟨?_, ihp⟩
        intro g' hg' p hp q hq
        have hqd : q ∈ (dropGroup lt m bufs).flatten := ihm g' hg' q hq
        obtain ⟨hqmem, hqfail⟩ := hdropmem q hqd
        have hqm : lt q.1 m = true :=
          lt_of_keyMatches_false (hdom q hqmem) hqfail
        obtain ⟨hpmatch, _⟩ := mem_collectGroup hp
        obtain ⟨hpm1, hpm2⟩ := equivK_iff.mp
          (by rw [← keyMatches_eq_equivK]; exact hpmatch)
        cases hv : lt q.1 p.1 with
        | true => rfl
        | false =>
          exact absurd (h.not_lt_trans q.1 p.1 m hv hpm2) (by simp [hqm])
      · intro g hg p hp
        rcases List.mem_cons.mp hg with rfl | hg
        · obtain ⟨_, buf, hbuf, hpbuf⟩ := mem_collectGroup hp
          exact List.mem_flatten.mpr ⟨buf, hbuf, hpbuf⟩
        · exact (hdropmem p (ihm g hg p hp)).1

/-- C2: for every family of per-worker buffers sorted under the strict weak
order, the sequence of shuffled groups produced by `shufflePhase` is in
strictly descending key order: when group `g` is constructed before group
`g'`, every key in `g` is strictly greater under the order than every key
in `g'`. -/
theorem shuffle_groups_descending (lt : K → K → Bool)
    (bufs : List (List (K × V))) (h : IsSWO lt)
    (hs : ∀ buf ∈ bufs, SortedBuf lt buf) :
    List.Pairwise (fun g g' => ∀ p ∈ g, ∀ q ∈ g', lt q.1 p.1 = true)
      (shuffledData lt bufs) :=
  (shuffleRounds_desc h (totalPairs bufs) bufs (le_refl _) hs).1

theorem shuffle_groups_descending_witness :
    IsSWO natLt ∧
    (∀ buf ∈ ([[(2, 0), (1, 1)], [(2, 5)]] : List (List (Nat × Nat))),
      SortedBuf natLt buf) ∧
    List.Pairwise (fun g g' => ∀ p ∈ g, ∀ q ∈ g', natLt q.1 p.1 = true)
      (shuffledData natLt [[(2, 0), (1, 1)], [(2, 5)]]) :=
  ⟨natLt_isSWO, by decide,
    shuffle_groups_descending natLt [[(2, 0), (1, 1)], [(2, 5)]]
      natLt_isSWO (by decide)⟩

theorem shuffleRounds_group_equiv (lt : K → K → Bool) :
    ∀ (fuel : Nat) (bufs : List (List (K × V))),
      ∀ g ∈ (shuffleRounds lt fuel bufs).1, ∃ m,
        ∀ p ∈ g, keyMatches lt m p = true := by
  intro fuel
  induction fuel with
  | zero =>
    intro bufs g hg
    simp [shuffleRounds] at hg
  | succ fuel ih =>
    intro bufs g hg
    cases hfm : findMaxKey lt bufs with
    | none => simp [shuffleRounds, hfm] at hg
    | some m =>
      simp only [shuffleRounds, hfm] at hg
      rcases List.mem_cons.mp hg with rfl | hg
      · exact ⟨m, fun p hp => (mem_collectGroup hp).1⟩
      · exact ih (dropGroup lt m bufs) g hg

/-- C3: within any single shuffled group produced by `shufflePhase`, no two
keys are distinguishable under the strict weak order: for any two pairs in
the same group, neither key is less than the other. -/
theorem shuffle_group_keys_equiv (lt : K → K → Bool)
    (bufs : List (List (K × V))) (h : IsSWO lt)
    (hs : ∀ buf ∈ bufs, SortedBuf lt buf) :
    ∀ g ∈ shuffledData lt bufs, ∀ p ∈ g, ∀ q ∈ g, lt p.1 q.1 = false := by
  intro g hg p hp q hq
  obtain ⟨m, hm⟩ := shuffleRounds_group_equiv lt (totalPairs bufs) bufs g hg
  obtain ⟨_, hp2⟩ := equivK_iff.mp
    (by rw [← keyMatches_eq_equivK]; exact hm p hp)
  obtain ⟨hq1, _⟩ := equivK_iff.mp
    (by rw [← keyMatches_eq_equivK]; exact hm q hq)
  exact h.not_lt_trans p.1 m q.1 hp2 hq1

theorem shuffle_group_keys_equiv_witness :
    IsSWO natLt ∧
    (∀ buf ∈ ([[(2, 0), (1, 1)], [(2, 5)]] : List (List (Nat × Nat))),
      SortedBuf natLt buf) ∧
    (∀ g ∈ shuffledData natLt [[(2, 0), (1, 1)], [(2, 5)]],
      ∀ p ∈ g, ∀ q ∈ g, natLt p.1 q.1 = false) :=
  ⟨natLt_isSWO, by decide,
    shuffle_group_keys_equiv natLt [[(2, 0), (1, 1)], [(2, 5)]]
      natLt_isSWO (by decide)⟩

theorem numClasses_cons (lt : K → K → Bool) (k : K) (rest : List K) :
    numClasses lt (k :: rest)
      = 1 + numClasses lt (rest.filter fun j => !(equivK lt k j)) := by
  rw [numClasses]

theorem numClasses_filter_class (h : IsSWO lt) :
    ∀ (n : Nat) (l : List K) (m : K), l.length ≤ n →
      (∃ k ∈ l, equivK lt m k = true) →
      numClasses lt l
        = 1 + numClasses lt (l.filter fun k => !(equivK lt m k)) := by
  intro n
  induction n with
  | zero =>
    intro l m hlen hex
    obtain ⟨k, hk, _⟩ := hex
    rw [List.length_eq_zero.mp (Nat.le_zero.mp hlen)] at hk
    cases hk
  | succ n ih =>
    intro l m hlen hex
    cases l with
    | nil =>
      obtain ⟨k, hk, _⟩ := hex
      cases hk
    | cons a t =>
      by_cases ha : equivK lt m a = true
      · have hfa : (!(equivK lt m a)) = false := by simp [ha]
        have hfilter : (a :: t).filter (fun j => !(equivK lt m j))
            = t.filter (fun j => !(equivK lt m j)) := by
          rw [List.filter_cons, hfa]
          simp
        have hcong : ∀ j ∈ t, (fun j => !(equivK lt a j)) j
            = (fun j => !(equivK lt m j)) j := by
          intro j _
          simp only
          rw [equivK_congr h (equivK_symm ha) j]
        rw [hfilter, numClasses_cons, List.filter_congr hcong]
      · have ha' : equivK lt m a = false := eq_false_of_ne_true ha
        obtain ⟨k, hk, hkm⟩ := hex
        have hkt : k ∈ t := by
          rcases List.mem_cons.mp hk with rfl | hkt
          · rw [hkm] at ha'
            cases ha'
          · exact hkt
        have hka : equivK lt a k = false := by
          cases hv : equivK lt a k with
          | false => rfl
          | true =>
            have hma : equivK lt m a = true :=
              equivK_trans h hkm (equivK_symm hv)
            rw [hma] at ha'
            cases ha'
        have hex2 : ∃ j ∈ t.filter (fun j => !(equivK lt a j)),
            equivK lt m j = true := by
          refine ⟨k, ?_, hkm⟩
          rw [List.mem_filter]
          exact ⟨hkt, by simp [hka]⟩
        have hlen2 : (t.filter (fun j => !(equivK lt a j))).length ≤ n := by
          have hle := List.length_filter_le (fun j => !(equivK lt a j)) t
          simp only [List.length_cons] at hlen
          omega
        have hmain := ih (t.filter fun j => !(equivK lt a j)) m hlen2 hex2
        have hfa : (!(equivK lt m a)) = true := by simp [ha']
        have hfilter : (a :: t).filter (fun j => !(equivK lt m j))
            = a :: t.filter (fun j => !(equivK lt m j)) := by
          rw [List.filter_cons, hfa]
          simp
        rw [hfilter, numClasses_cons, numClasses_cons, hmain,
          List.filter_filter, List.filter_filter]
        have hcomm : ∀ j ∈ t, ((!(equivK lt m j)) && (!(equivK lt a j)))
            = ((!(equivK lt a j)) && (!(equivK lt m j))) := by
          intro j _
          exact Bool.and_comm _ _
        rw [List.filter_congr hcomm]

theorem map_fst_filter (q : K → Bool) :
    ∀ l : List (K × V),
      (l.filter (fun p => q p.1)).map Prod.fst = (l.map Prod.fst).filter q := by
  intro l
  induction l with
  | nil => rfl
  | cons p rest ih =>
    rw [List.filter_cons, List.map_cons, List.filter_cons]
    cases hq : q p.1 with
    | true => simp [hq, ih]
    | false => simp [hq, ih]

theorem shuffleRounds_counter (lt : K → K → Bool) :
    ∀ (fuel : Nat) (bufs : List (List (K × V))),
      (shuffleRounds lt fuel bufs).2 = (shuffleRounds lt fuel bufs).1.length := by
  intro fuel
  induction fuel with
  | zero => intro bufs; rfl
  | succ fuel ih =>
    intro bufs
    cases hfm : findMaxKey lt bufs with
    | none => simp [shuffleRounds, hfm]
    | some m => simp [shuffleRounds, hfm, ih]

theorem shuffleRounds_length_numClasses (h : IsSWO lt) :
    ∀ (fuel : Nat) (bufs : List (List (K × V))), totalPairs bufs ≤ fuel →
      (∀ buf ∈ bufs, SortedBuf lt buf) →
      (shuffleRounds lt fuel bufs).1.length
        = numClasses lt (bufs.flatten.map Prod.fst) := by
  intro fuel
  induction fuel with
  | zero =>
    intro bufs hb _
    have hnil : bufs.flatten = [] :=
      List.flatten_eq_nil_iff.mpr (all_nil_of_totalPairs_zero (Nat.le_zero.mp hb))
    simp [shuffleRounds, hnil, numClasses]
  | succ fuel ih =>
    intro bufs hb hs
    cases hfm : findMaxKey lt bufs with
    | none =>
      have hnil : bufs.flatten = [] :=
        List.flatten_eq_nil_iff.mpr (findMaxKey_none lt hfm)
      simp [shuffleRounds, hfm, hnil, numClasses]
    | some m =>
      have hdom : ∀ p ∈ bufs.flatten, lt m p.1 = false :=
        findMaxKey_ge_all h hs hfm
      have hlt := totalPairs_dropGroup_lt h hfm
      have hrec := ih (dropGroup lt m bufs) (by omega) (sorted_dropGroup hs)
      have hdropkeys : (dropGroup lt m bufs).flatten.map Prod.fst
          = (bufs.flatten.map Prod.fst).filter (fun k => !(equivK lt m k)) := by
        rw [dropGroup_eq_filter h hs hdom]
        have hfun : (fun p : K × V => !(keyMatches lt m p))
            = (fun p : K × V => !(equivK lt m p.1)) := by
          funext p
          rw [keyMatches_eq_equivK]
        rw [hfun, map_fst_filter (fun k => !(equivK lt m k))]
      have hex : ∃ k ∈ bufs.flatten.map Prod.fst, equivK lt m k = true := by
        obtain ⟨buf, hbuf, v, rest, hbeq⟩ := findMaxKey_mem hfm
        refine ⟨m, ?_, equivK_refl h m⟩
        refine List.mem_map.mpr ⟨(m, v), ?_, rfl⟩
        refine List.mem_flatten.mpr ⟨buf, hbuf, ?_⟩
        rw [hbeq]
        exact List.mem_cons_self _ _
      have hcount := numClasses_filter_class h
        (bufs.flatten.map Prod.fst).length (bufs.flatten.map Prod.fst) m
        (le_refl _) hex
      simp only [shuffleRounds, hfm, List.length_cons]
      rw [hrec, hdropkeys, hcount]
      omega

/-- C4: after `shufflePhase` the value of the shuffle counter equals the
number of shuffled groups produced, which equals the number of distinct K2
equivalence classes (under incomparability) among all intermediate pairs;
consequently the reduce loop, bounded by the counter, performs exactly one
reduce invocation per equivalence class. -/
theorem shuffle_counter_eq_num_classes (lt : K → K → Bool)
    (bufs : List (List (K × V))) (reduceF : List (K × V) → List O)
    (h : IsSWO lt) (hs : ∀ buf ∈ bufs, SortedBuf lt buf) :
    shuffleCounter lt bufs = (shuffledData lt bufs).length ∧
    (shuffledData lt bufs).length = numClasses lt (bufs.flatten.map Prod.fst) ∧
    (reducePhase reduceF (shuffledData lt bufs) (shuffleCounter lt bufs)).length
      = numClasses lt (bufs.flatten.map Prod.fst) := by
  have h1 : shuffleCounter lt bufs = (shuffledData lt bufs).length :=
    shuffleRounds_counter lt (totalPairs bufs) bufs
  have h2 : (shuffledData lt bufs).length
      = numClasses lt (bufs.flatten.map Prod.fst) :=
    shuffleRounds_length_numClasses h (totalPairs bufs) bufs (le_refl _) hs
  refine ⟨h1, h2, ?_⟩
  have h3 : (reducePhase reduceF (shuffledData lt bufs)
      (shuffleCounter lt bufs)).length = shuffleCounter lt bufs := by
    simp [reducePhase]
  rw [h3, h1, h2]

theorem shuffle_counter_eq_num_classes_witness :
    IsSWO natLt ∧
    (∀ buf ∈ ([[(2, 0), (1, 1)], [(2, 5)]] : List (List (Nat × Nat))),
      SortedBuf natLt buf) ∧
    (shuffleCounter natLt [[(2, 0), (1, 1)], [(2, 5)]]
        = (shuffledData natLt [[(2, 0), (1, 1)], [(2, 5)]]).length ∧
      (shuffledData natLt [[(2, 0), (1, 1)], [(2, 5)]]).length
        = numClasses natLt
            (([[(2, 0), (1, 1)], [(2, 5)]]
              : List (List (Nat × Nat))).flatten.map Prod.fst) ∧
      (reducePhase (fun g => g.map Prod.snd)
          (shuffledData natLt [[(2, 0), (1, 1)], [(2, 5)]])
          (shuffleCounter natLt [[(2, 0), (1, 1)], [(2, 5)]])).length
        = numClasses natLt
            (([[(2, 0), (1, 1)], [(2, 5)]]
              : List (List (Nat × Nat))).flatten.map Prod.fst)) :=
  ⟨natLt_isSWO, by decide,
    shuffle_counter_eq_num_classes natLt [[(2, 0), (1, 1)], [(2, 5)]]
      (fun g => g.map Prod.snd) natLt_isSWO (by decide)⟩

theorem insertPair_perm (lt : K → K → Bool) (p : K × V) :
    ∀ l : List (K × V), (insertPair lt p l).Perm (p :: l) := by
  intro l
  induction l with
  | nil => exact List.Perm.refl _
  | cons q rest ih =>
    rw [insertPair]
    by_cases hq : lt q.1 p.1 = true
    · rw [if_pos hq]
    · rw [if_neg hq]
      exact (List.Perm.cons q ih).trans (List.Perm.swap p q rest)

theorem sortPhase_perm (lt : K → K → Bool) :
    ∀ l : List (K × V), (sortPhase lt l).Perm l := by
  intro l
  induction l with
  | nil => exact List.Perm.refl _
  | cons p rest ih =>
    have he : sortPhase lt (p :: rest) = insertPair lt p (sortPhase lt rest) := rfl
    rw [he]
    exact (insertPair_perm lt p _).trans (List.Perm.cons p ih)

theorem insertPair_sorted (h : IsSWO lt) (p : K × V) :
    ∀ {l : List (K × V)}, SortedBuf lt l →
      SortedBuf lt (insertPair lt p l) ∧
      (∀ x, (insertPair lt p l).head? = some x → x = p ∨ l.head? = some x) := by
  intro l
  induction l with
  | nil =>
    intro _
    refine ⟨List.chain'_singleton p, ?_⟩
    intro x hx
    rw [insertPair] at hx
    injection hx with hx
    exact Or.inl hx.symm
  | cons q rest ih =>
    intro hs
    rw [insertPair]
    by_cases hq : lt q.1 p.1 = true
    · rw [if_pos hq]
      refine ⟨List.chain'_cons.mpr ⟨h.asymm hq, hs⟩, ?_⟩
      intro x hx
      injection hx with hx
      exact Or.inl hx.symm
    · rw [if_neg hq]
      have hq2 : lt q.1 p.1 = false := eq_false_of_ne_true hq
      obtain ⟨hsr, hhead⟩ := ih (List.Chain'.tail hs)
      refine ⟨?_, ?_⟩
      · cases hins : insertPair lt p rest with
        | nil => exact List.chain'_singleton q
        | cons y ys =>
          refine List.chain'_cons.mpr ⟨?_, ?_⟩
          · rcases hhead y (by rw [hins]; rfl) with rfl | hy
            · exact hq2
            · cases rest with
              | nil => cases hy
              | cons r rs =>
                injection hy with hy
                rw [← hy]
                exact (List.chain'_cons.mp hs).1
          · rw [← hins]
            exact hsr
      · intro x hx
        injection hx with hx
        refine Or.inr ?_
        rw [hx]
        rfl

theorem sortPhase_sorted (h : IsSWO lt) :
    ∀ l : List (K × V), SortedBuf lt (sortPhase lt l) := by
  intro l
  induction l with
  | nil => exact List.chain'_nil
  | cons p rest ih =>
    have he : sortPhase lt (p :: rest) = insertPair lt p (sortPhase lt rest) := rfl
    rw [he]
    exact (insertPair_sorted h p ih).1

theorem flatten_perm_of_forall₂ {α : Type} :
    ∀ {L₁ L₂ : List (List α)}, List.Forall₂ (fun a b => a.Perm b) L₁ L₂ →
      L₁.flatten.Perm L₂.flatten := by
  intro L₁ L₂ hf
  induction hf with
  | nil => exact List.Perm.refl _
  | cons h1 _ ih => exact List.Perm.append h1 ih

theorem forall₂_perm_map {α β : Type} (f : List α → List β)
    (hf : ∀ g g', g.Perm g' → (f g).Perm (f g')) :
    ∀ {L₁ L₂ : List (List α)}, List.Forall₂ (fun a b => a.Perm b) L₁ L₂ →
      List.Forall₂ (fun a b => a.Perm b) (L₁.map f) (L₂.map f) := by
  intro L₁ L₂ hL
  induction hL with
  | nil => exact List.Forall₂.nil
  | cons h1 _ ih => exact List.Forall₂.cons (hf _ _ h1) ih

theorem shuffleRounds_all_nil (lt : K → K → Bool) {B : List (List (K × V))}
    (hnil : ∀ buf ∈ B, buf = []) :
    ∀ fuel, (shuffleRounds lt fuel B).1 = [] := by
  intro fuel
  cases fuel with
  | zero => rfl
  | succ fuel => simp [shuffleRounds, findMaxKey_of_all_nil lt hnil]

theorem shuffleRounds_perm_pointwise (h : IsSWO lt) :
    ∀ (fuel fuel2 : Nat) (B B2 : List (List (K × V))),
      totalPairs B ≤ fuel → totalPairs B2 ≤ fuel2 →
      (∀ buf ∈ B, SortedBuf lt buf) → (∀ buf ∈ B2, SortedBuf lt buf) →
      B.flatten.Perm B2.flatten →
      List.Forall₂ (fun a b => a.Perm b)
        (shuffleRounds lt fuel B).1 (shuffleRounds lt fuel2 B2).1 := by
  intro fuel
  induction fuel with
  | zero =>
    intro fuel2 B B2 hB hB2 _ _ hperm
    have hBall : ∀ buf ∈ B, buf = [] :=
      all_nil_of_totalPairs_zero (Nat.le_zero.mp hB)
    have hBnil : B.flatten = [] := List.flatten_eq_nil_iff.mpr hBall
    have hB2all : ∀ buf ∈ B2, buf = [] := by
      rw [hBnil] at hperm
      exact List.flatten_eq_nil_iff.mp hperm.symm.eq_nil
    rw [shuffleRounds_all_nil lt hB2all fuel2]
    exact List.Forall₂.nil
  | succ fuel ihf =>
    intro fuel2 B B2 hB hB2 hsB hsB2 hperm
    cases hfm : findMaxKey lt B with
    | none =>
      have hBall := findMaxKey_none lt hfm
      have hBnil : B.flatten = [] := List.flatten_eq_nil_iff.mpr hBall
      have hB2all : ∀ buf ∈ B2, buf = [] := by
        rw [hBnil] at hperm
        exact List.flatten_eq_nil_iff.mp hperm.symm.eq_nil
      simp only [shuffleRounds, hfm]
      rw [shuffleRounds_all_nil lt hB2all fuel2]
      exact List.Forall₂.nil
    | some m =>
      cases hfm2 : findMaxKey lt B2 with
      | none =>
        exfalso
        have hB2nil : B2.flatten = [] :=
          List.flatten_eq_nil_iff.mpr (findMaxKey_none lt hfm2)
        have hBnil : B.flatten = [] := by
          rw [hB2nil] at hperm
          exact hperm.eq_nil
        obtain ⟨buf, hbuf, v, rest, hbeq⟩ := findMaxKey_mem hfm
        have := List.flatten_eq_nil_iff.mp hBnil buf hbuf
        rw [hbeq] at this
        cases this
      | some m2 =>
        cases fuel2 with
        | zero =>
          exfalso
          have hB2all : ∀ buf ∈ B2, buf = [] :=
            all_nil_of_totalPairs_zero (Nat.le_zero.mp hB2)
          rw [findMaxKey_of_all_nil lt hB2all] at hfm2
          cases hfm2
        | succ fuel3 =>
          have hdomB : ∀ p ∈ B.flatten, lt m p.1 = false :=
            findMaxKey_ge_all h hsB hfm
          have hdomB2 : ∀ p ∈ B2.flatten, lt m2 p.1 = false :=
            findMaxKey_ge_all h hsB2 hfm2
          have hmB : ∃ v, (m, v) ∈ B.flatten := by
            obtain ⟨buf, hbuf, v, rest, hbeq⟩ := findMaxKey_mem hfm
            exact ⟨v, List.mem_flatten.mpr ⟨buf, hbuf, by
              rw [hbeq]
              exact List.mem_cons_self _ _⟩⟩
          have hm2B2 : ∃ v, (m2, v) ∈ B2.flatten := by
            obtain ⟨buf, hbuf, v, rest, hbeq⟩ := findMaxKey_mem hfm2
            exact ⟨v, List.mem_flatten.mpr ⟨buf, hbuf, by
              rw [hbeq]
              exact List.mem_cons_self _ _⟩⟩
          obtain ⟨v₁, hv₁⟩ := hmB
          obtain ⟨v₂, hv₂⟩ := hm2B2
          have hmm1 : lt m m2 = false := hdomB _ (hperm.mem_iff.mpr hv₂)
          have hmm2 : lt m2 m = false := hdomB2 _ (hperm.mem_iff.mp hv₁)
          have hpred : ∀ p ∈ B2.flatten,
              keyMatches lt m p = keyMatches lt m2 p := by
            intro p _
            rw [keyMatches_eq_equivK, keyMatches_eq_equivK]
            exact equivK_congr h (equivK_iff.mpr ⟨hmm1, hmm2⟩) p.1
          have hgroup : (collectGroup lt m B).Perm (collectGroup lt m2 B2) := by
            rw [collectGroup_eq_filter h hsB hdomB,
              collectGroup_eq_filter h hsB2 hdomB2]
            refine (List.Perm.filter _ hperm).trans ?_
            rw [List.filter_congr hpred]
          have hpred2 : ∀ p ∈ B2.flatten,
              (!(keyMatches lt m p)) = (!(keyMatches lt m2 p)) := by
            intro p hp
            rw [hpred p hp]
          have hdropperm : ((dropGroup lt m B).flatten).Perm
              ((dropGroup lt m2 B2).flatten) := by
            rw [dropGroup_eq_filter h hsB hdomB,
              dropGroup_eq_filter h hsB2 hdomB2]
            refine (List.Perm.filter _ hperm).trans ?_
            rw [List.filter_congr hpred2]
          have hltB := totalPairs_dropGroup_lt h hfm
          have hltB2 := totalPairs_dropGroup_lt h hfm2
          have hrec := ihf fuel3 (dropGroup lt m B) (dropGroup lt m2 B2)
            (by omega) (by omega) (sorted_dropGroup hsB)
            (sorted_dropGroup hsB2) hdropperm
          simp only [shuffleRounds, hfm, hfm2]
          exact List.Forall₂.cons hgroup hrec

theorem workerBuffers_sorted (h : IsSWO lt) (mapF : A → List (K × V))
    (partition : List (List A)) :
    ∀ buf ∈ workerBuffers lt mapF partition, SortedBuf lt buf := by
  intro buf hbuf
  obtain ⟨chunk, _, rfl⟩ := List.mem_map.mp hbuf
  exact sortPhase_sorted h _

theorem workerBuffers_flatten_perm (lt : K → K → Bool)
    (mapF : A → List (K × V)) :
    ∀ partition : List (List A),
      (workerBuffers lt mapF partition).flatten.Perm
        ((partition.flatten.map mapF).flatten) := by
  intro partition
  induction partition with
  | nil => exact List.Perm.refl _
  | cons chunk rest ih =>
    simp only [workerBuffers, List.map_cons, List.flatten_cons,
      List.map_append, List.flatten_append]
    refine List.Perm.append ?_ ?_
    · exact sortPhase_perm lt _
    · simp only [workerBuffers] at ih
      exact ih

theorem runJob_perm (h : IsSWO lt) (mapF : A → List (K × V))
    (reduceF : List (K × V) → List O) (input : List A)
    (partition : List (List A))
    (hred : ∀ g g', g.Perm g' → (reduceF g).Perm (reduceF g'))
    (hpart : partition.flatten.Perm input) :
    (runJob lt mapF reduceF input partition).Perm
      (runJob lt mapF reduceF input [input]) := by
  have hsB := workerBuffers_sorted h mapF partition
  have hsB1 := workerBuffers_sorted h mapF [input]
  have hBperm : (workerBuffers lt mapF partition).flatten.Perm
      (workerBuffers lt mapF [input]).flatten := by
    refine (workerBuffers_flatten_perm lt mapF partition).trans ?_
    refine List.Perm.trans ?_ (workerBuffers_flatten_perm lt mapF [input]).symm
    have h1 : ([input] : List (List A)).flatten = input := by simp
    rw [h1]
    exact (hpart.map mapF).flatten
  have hgroups : List.Forall₂ (fun a b => a.Perm b)
      (shuffledData lt (workerBuffers lt mapF partition))
      (shuffledData lt (workerBuffers lt mapF [input])) :=
    shuffleRounds_perm_pointwise h
      (totalPairs (workerBuffers lt mapF partition))
      (totalPairs (workerBuffers lt mapF [input]))
      (workerBuffers lt mapF partition) (workerBuffers lt mapF [input])
      (le_refl _) (le_refl _) hsB hsB1 hBperm
  exact flatten_perm_of_forall₂ (forall₂_perm_map reduceF hred hgroups)

/-- C5 amended: for every input batch, pure client map and reduce, and
every partition of the map work across the workers (every input element
processed exactly once), *provided the reduce transformation's output is
invariant under permutation of its input group*, the multiset of output
pairs equals the multiset produced with a single worker.  Without that
proviso the claim fails (see the counterexample). -/
theorem output_multiset_partition_independent (lt : K → K → Bool)
    (mapF : A → List (K × V)) (reduceF : List (K × V) → List O)
    (input : List A) (partition : List (List A)) (h : IsSWO lt)
    (hred : ∀ g g', g.Perm g' → (reduceF g).Perm (reduceF g'))
    (hpart : partition.flatten.Perm input) :
    (runJob lt mapF reduceF input partition : Multiset O)
      = (runJob lt mapF reduceF input [input] : Multiset O) :=
  Multiset.coe_eq_coe.mpr (runJob_perm h mapF reduceF input partition hred hpart)

theorem output_multiset_partition_independent_witness :
    IsSWO natLt ∧
    (([[2], [1]] : List (List Nat)).flatten.Perm [1, 2]) ∧
    (runJob natLt exMap (fun g => g.map Prod.snd) [1, 2] [[2], [1]]
        : Multiset Nat)
      = (runJob natLt exMap (fun g => g.map Prod.snd) [1, 2] [[1, 2]]
        : Multiset Nat) :=
  ⟨natLt_isSWO, by decide,
    output_multiset_partition_independent natLt exMap
      (fun g => g.map Prod.snd) [1, 2] [[2], [1]] natLt_isSWO
      (fun g g2 hg => hg.map Prod.snd) (by decide)⟩

/-- C5 counterexample: the claim as stated is false.  With the pure client
(`exMap`, `exReduce`) and input `[1, 2]`, the two-worker partition
`[[1], [2]]` (worker 0 maps input element 1, worker 1 maps element 2 — a
legal dynamic dispatch in which every index is processed exactly once)
produces the output multiset {1}, while the single-worker run produces
{2}: the order of pairs inside the single shuffled group depends on the
partition, and the pure reduce function is order-sensitive. -/
theorem output_multiset_depends_on_partition :
    (([[1], [2]] : List (List Nat)).flatten.Perm [1, 2]) ∧
    ¬ ((runJob natLt exMap exReduce [1, 2] [[1], [2]] : Multiset Nat)
        = (runJob natLt exMap exReduce [1, 2] [[1, 2]] : Multiset Nat)) := by
  refine ⟨by decide, ?_⟩
  rw [Multiset.coe_eq_coe]
  decide

end ShuffleLemmas

end MRF
